import Mathlib

/-!
Shallow embedding of the ordered-container + selection-sort core of the
School-summary-report repository (src/src/data_structures/d_linked_list.js,
which holds both the DLinkedList class and the SelectionSort class).

JavaScript dynamic values that can appear as a record field are modelled by
the inductive type Value: JS null, JS undefined, numbers (restricted to
integers, the repository only ever stores integral marks) and strings.
JS built-ins are modelled explicitly:
  - String(v)                        by Value.jsToString,
  - ToNumber coercion of < and >     by Value.toNumber and jsLt and jsGt,
  - a.localeCompare(b, undefined, numeric)
                                     by strCmp: the string is tokenized
    into maximal digit runs (compared by numeric value) and single
    characters (compared by code point, after digits); token lists are
    compared lexicographically.
JS records are modelled as association lists of field name and Value; the
first binding of a name is the visible one, so object spread followed by
overriding keys is modelled by prepending the overriding bindings.
-/

inductive Value where
  | vnull : Value
  | vundef : Value
  | vnum : Int → Value
  | vstr : String → Value
deriving DecidableEq, Repr

/-- A JS value is absent when it is null or undefined. -/
def Value.absent : Value → Bool
  | .vnull => true
  | .vundef => true
  | _ => false

/-- JS truthiness for the modelled values: null, undefined, 0 and the
empty string are falsy, all other values are truthy. -/
def Value.truthy : Value → Bool
  | .vnull => false
  | .vundef => false
  | .vnum n => !decide (n = 0)
  | .vstr s => !decide (s = "")

/-- The value is a number or absent (no string): the homogeneity class on
which the type-aware comparison behaves as a total preorder. -/
def Value.numOrAbsent : Value → Bool
  | .vstr _ => false
  | _ => true

/-- The value is a string or absent (no number). -/
def Value.strOrAbsent : Value → Bool
  | .vnum _ => false
  | _ => true

/-- Model of the JS String(v) conversion for the modelled values. -/
def Value.jsToString : Value → String
  | .vnull => "null"
  | .vundef => "undefined"
  | .vnum n => toString n
  | .vstr s => s

/-- Parse a maximal run of decimal digits into a number; consumes only
digit characters and returns the rest of the character list. -/
def digitRun (acc : Nat) : List Char → Nat × List Char
  | [] => (acc, [])
  | c :: cs => if c.isDigit then digitRun (acc * 10 + (c.toNat - 48)) cs else (acc, c :: cs)

/-- Tokens of the numeric-aware string comparison: a maximal digit run
(kept as its numeric value) or a single non-digit character (kept as its
code point). -/
inductive Tok where
  | num : Nat → Tok
  | chr : Nat → Tok
deriving DecidableEq, Repr

/-- Structural tokenizer (fuel is an upper bound on the characters left;
the character-list length is always enough). -/
def tokenizeGo : Nat → List Char → List Tok
  | 0, _ => []
  | _, [] => []
  | fuel + 1, c :: rest =>
    if c.isDigit then
      Tok.num (digitRun (c.toNat - 48) rest).1 :: tokenizeGo fuel (digitRun (c.toNat - 48) rest).2
    else
      Tok.chr c.toNat :: tokenizeGo fuel rest

def tokenize (cs : List Char) : List Tok := tokenizeGo cs.length cs

/-- Three-way comparison of naturals. -/
def natOrd (m n : Nat) : Ordering :=
  if m < n then .lt else if m = n then .eq else .gt

/-- Three-way comparison of tokens: digit runs compare by numeric value,
characters by code point, and a digit run sorts before a character. -/
def tokCmp : Tok → Tok → Ordering
  | .num a, .num b => natOrd a b
  | .chr a, .chr b => natOrd a b
  | .num _, .chr _ => .lt
  | .chr _, .num _ => .gt

/-- Lexicographic comparison of token lists. -/
def lexCmp : List Tok → List Tok → Ordering
  | [], [] => .eq
  | [], _ :: _ => .lt
  | _ :: _, [] => .gt
  | a :: ta, b :: tb =>
    match tokCmp a b with
    | .eq => lexCmp ta tb
    | o => o

def ordInt : Ordering → Int
  | .lt => -1
  | .eq => 0
  | .gt => 1

/-- Model of a.localeCompare(b, undefined, numeric: true): a numeric-aware
string comparison returning a negative, zero or positive number. -/
def strCmp (x y : String) : Int := ordInt (lexCmp (tokenize x.data) (tokenize y.data))

/-- Parse an optionally signed run of decimal digits; none models NaN. -/
def parseDigitsGo (acc : Nat) : List Char → Option Nat
  | [] => some acc
  | c :: cs => if c.isDigit then parseDigitsGo (acc * 10 + (c.toNat - 48)) cs else none

def parseDigits : List Char → Option Nat
  | [] => none
  | c :: cs => if c.isDigit then parseDigitsGo (c.toNat - 48) cs else none

def isJsSpace (c : Char) : Bool := c = ' ' || c = '\t' || c = '\n' || c = '\r'

/-- Strip whitespace from both ends, as the JS ToNumber coercion does. -/
def trimChars (cs : List Char) : List Char :=
  ((cs.dropWhile isJsSpace).reverse.dropWhile isJsSpace).reverse

/-- Model of the JS ToNumber coercion of a string (restricted to the
integer literals the repository produces): the trimmed empty string is 0,
an optionally signed digit run is its value, everything else is NaN. -/
def jsStringToNumber (s : String) : Option Int :=
  match trimChars s.data with
  | [] => some (0 : Int)
  | '-' :: cs => (parseDigits cs).map (fun n => -(n : Int))
  | '+' :: cs => (parseDigits cs).map (fun n => (n : Int))
  | cs => (parseDigits cs).map (fun n => (n : Int))

/-- Model of the JS ToNumber coercion; none models NaN. -/
def Value.toNumber : Value → Option Int
  | .vnull => some 0
  | .vundef => none
  | .vnum n => some n
  | .vstr s => jsStringToNumber s

/-- Model of the JS relational operator a < b on the modelled values: two
strings compare lexicographically, otherwise both sides are coerced to
numbers and any NaN makes the result false. -/
def jsLt (a b : Value) : Bool :=
  match a, b with
  | .vstr x, .vstr y => decide (x < y)
  | _, _ =>
    match a.toNumber, b.toNumber with
    | some x, some y => decide (x < y)
    | _, _ => false

/-- Model of the JS relational operator a > b, mirroring jsLt. -/
def jsGt (a b : Value) : Bool :=
  match a, b with
  | .vstr x, .vstr y => decide (y < x)
  | _, _ =>
    match a.toNumber, b.toNumber with
    | some x, some y => decide (y < x)
    | _, _ => false

/-- Model of the JS relational operator a >= b, mirroring jsLt. -/
def jsGe (a b : Value) : Bool :=
  match a, b with
  | .vstr x, .vstr y => !decide (x < y)
  | _, _ =>
    match a.toNumber, b.toNumber with
    | some x, some y => decide (y ≤ x)
    | _, _ => false

/-- A JS record (flat object) as an association list; the first binding of
a field name is the visible one. -/
abbrev JsRec := List (String × Value)

/-- Direct property access obj.k: an unset field reads as undefined. -/
def fieldLookup (r : JsRec) (k : String) : Value :=
  match r.find? (fun p => p.1 == k) with
  | some p => p.2
  | none => .vundef

namespace SelectionSort

/-- Tail of SelectionSort.getValue: walks the remaining components of a
dotted property path; after the first step the walked value is a
primitive in this model, so indexing it yields undefined, and a
null/undefined intermediate returns null as in the source. -/
def getValueGo : Value → List String → Value
  | v, [] => v
  | .vnull, _ :: _ => .vnull
  | .vundef, _ :: _ => .vnull
  | _, _ :: ps => getValueGo .vundef ps

/-- Model of the JS property.split on a dot, accumulating the current
component in reverse. -/
def splitOnDotGo (cur : List Char) : List Char → List (List Char)
  | [] => [cur.reverse]
  | c :: cs => if c = '.' then cur.reverse :: splitOnDotGo [] cs else splitOnDotGo (c :: cur) cs

def splitOnDot (s : String) : List String := (splitOnDotGo [] s.data).map String.mk

/-- SelectionSort.getValue(obj, property): nested property lookup; a
falsy property string returns null. -/
def getValue (obj : JsRec) (property : String) : Value :=
  if property = "" then .vnull
  else
    match splitOnDot property with
    | [] => .vnull
    | p :: ps => getValueGo (fieldLookup obj p) ps

/-- SelectionSort.compare(a, b): null/undefined is greater than anything
present and equal to itself; two numbers compare by subtraction; two
strings by the numeric-aware string comparison; any other mix is
stringified and compared the same way. -/
def compare (a b : Value) : Int :=
  if a.absent then (if b.absent then 0 else 1)
  else if b.absent then -1
  else
    match a, b with
    | .vnum x, .vnum y => x - y
    | .vstr x, .vstr y => strCmp x y
    | x, y => strCmp x.jsToString y.jsToString

/-- SelectionSort.swap(arr, i, j): swaps two positions when the indices
are distinct and in bounds, otherwise leaves the array unchanged (the
source's i >= 0 and j >= 0 guards are vacuous for Nat indices). -/
def swap {α : Type} (l : List α) (i j : Nat) : List α :=
  if h : i ≠ j ∧ i < l.length ∧ j < l.length then
    (l.set i (l.get ⟨j, h.2.2⟩)).set j (l.get ⟨i, h.2.1⟩)
  else l

/-- The shared inner loop of the three sort entry points: scan positions
j, j+1, ... (fuel many) keeping the index ext of the best element so far;
pref cur best decides whether the scanned element displaces the best. -/
def scanFrom {α : Type} (pref : α → α → Bool) (l : List α) (ext j fuel : Nat) : Nat :=
  match fuel with
  | 0 => ext
  | f + 1 =>
    match l.get? j, l.get? ext with
    | some cur, some e => scanFrom pref l (if pref cur e then j else ext) (j + 1) f
    | _, _ => ext

/-- One iteration of the shared outer loop at boundary index i: find the
extreme index of the unsorted suffix and swap it to position i when it
differs from i. -/
def sortStep {α : Type} (pref : α → α → Bool) (l : List α) (i : Nat) : List α :=
  if scanFrom pref l i (i + 1) (l.length - (i + 1)) ≠ i then
    swap l i (scanFrom pref l i (i + 1) (l.length - (i + 1)))
  else l

/-- The shared outer loop of the three sort entry points: for each
boundary index i (fuel counts the remaining boundary indices, starting at
length - 1), find the extreme index of the suffix and swap it to i. -/
def sortLoop {α : Type} (pref : α → α → Bool) (l : List α) (i fuel : Nat) : List α :=
  match fuel with
  | 0 => l
  | f + 1 => sortLoop pref (sortStep pref l i) (i + 1) f

/-- The shared shape of the three sort entry points: copy, return the
copy when it has at most one element, otherwise run the boundary loop. -/
def sortCore {α : Type} (pref : α → α → Bool) (l : List α) : List α :=
  if l.length ≤ 1 then l else sortLoop pref l 0 (l.length - 1)

/-- SelectionSort.sortStudentsByMarks(students, sortBy, ascending): the
inner comparison is the raw JS < (ascending) or > (descending) on the
selected field values. -/
def sortStudentsByMarks (students : List JsRec) (sortBy : String) (ascending : Bool) :
    List JsRec :=
  sortCore (fun cur ext =>
    if ascending then jsLt (getValue cur sortBy) (getValue ext sortBy)
    else jsGt (getValue cur sortBy) (getValue ext sortBy)) students

/-- SelectionSort.sortTableData(data, sortBy, ascending): the inner
comparison goes through SelectionSort.compare on the selected field
values. -/
def sortTableData (data : List JsRec) (sortBy : String) (ascending : Bool) : List JsRec :=
  sortCore (fun cur ext =>
    let comparison := compare (getValue cur sortBy) (getValue ext sortBy)
    if ascending then decide (comparison < 0) else decide (comparison > 0)) data

/-- SelectionSort.sortNumericArray(arr, ascending): the inner comparison
is the raw JS < or > on the elements themselves. -/
def sortNumericArray (arr : List Value) (ascending : Bool) : List Value :=
  sortCore (fun cur ext => if ascending then jsLt cur ext else jsGt cur ext) arr

/-- SelectionSort.calculateGrade(mark): fixed thresholds; the JS >= on a
mark and a number literal is modelled by jsGe. -/
def calculateGrade (mark : Value) : String :=
  if jsGe mark (.vnum 90) then "A+"
  else if jsGe mark (.vnum 85) then "A"
  else if jsGe mark (.vnum 80) then "A-"
  else if jsGe mark (.vnum 75) then "B+"
  else if jsGe mark (.vnum 70) then "B"
  else if jsGe mark (.vnum 65) then "B-"
  else if jsGe mark (.vnum 60) then "C+"
  else if jsGe mark (.vnum 55) then "C"
  else if jsGe mark (.vnum 50) then "C-"
  else "F"

/-- The JS short-circuit a or-else b on values: a when truthy, else b. -/
def jsOr (a b : Value) : Value := if a.truthy then a else b

/-- The map body of SelectionSort.sortStudentsWithGrades: grade the
student's mark (a falsy mark counts as 0) and build the object spread
with the grade and originalIndex keys overriding; overriding is modelled
by prepending the later bindings. -/
def annotateWithGrade (student : JsRec) : JsRec :=
  ("originalIndex", jsOr (fieldLookup student "index") (fieldLookup student "originalIndex")) ::
  ("grade", .vstr (calculateGrade (jsOr (fieldLookup student "mark") (.vnum 0)))) ::
  student

/-- SelectionSort.sortStudentsWithGrades(students, ascending). -/
def sortStudentsWithGrades (students : List JsRec) (ascending : Bool) : List JsRec :=
  sortStudentsByMarks (students.map annotateWithGrade) "mark" ascending

/-- The record returned by SelectionSort.getSortingStats. -/
structure SortingStats where
  arraySize : Int
  comparisons : Int
  swaps : Int
  timeComplexity : String
  spaceComplexity : String
  algorithm : String
deriving DecidableEq, Repr

/-- The findIndex call inside countSwaps: first index at or after j whose
element equals the target. -/
def findFrom (l : List Value) (target : Value) (j fuel : Nat) : Option Nat :=
  match fuel with
  | 0 => none
  | f + 1 =>
    match l.get? j with
    | some v => if v = target then some j else findFrom l target (j + 1) f
    | none => none

/-- The loop of SelectionSort.countSwaps: when the working copy disagrees
with the sorted array at i, look for the sorted element further right,
swap it in and count one swap. -/
def countSwapsLoop (sorted : List Value) (temp : List Value) (i fuel acc : Nat) : Nat :=
  match fuel with
  | 0 => acc
  | f + 1 =>
    if (temp.get? i).getD .vundef ≠ (sorted.get? i).getD .vundef then
      match findFrom temp ((sorted.get? i).getD .vundef) (i + 1) (temp.length - (i + 1)) with
      | some k => countSwapsLoop sorted (swap temp i k) (i + 1) f (acc + 1)
      | none => countSwapsLoop sorted temp (i + 1) f acc
    else countSwapsLoop sorted temp (i + 1) f acc

/-- SelectionSort.countSwaps(original, sorted): the documented
approximation, replayed on a copy of the original array. -/
def countSwaps (original sorted : List Value) : Nat :=
  countSwapsLoop sorted original 0 (original.length - 1) 0

/-- SelectionSort.getSortingStats(originalArray, sortedArray): the
comparison count is the floor of n(n-1)/2 computed from the original
array's length. -/
def getSortingStats (originalArray sortedArray : List Value) : SortingStats :=
  let n : Int := originalArray.length
  { arraySize := n
    comparisons := Int.fdiv (n * (n - 1)) 2
    swaps := countSwaps originalArray sortedArray
    timeComplexity := "O(n²) where n = " ++ toString n
    spaceComplexity := "O(1)"
    algorithm := "Selection Sort" }

end SelectionSort

/-- The singly linked list DLinkedList: the chain of nodes reachable from
head is modelled as the Lean list of their payloads (a Lean list is
finite and acyclic, matching the exclusively-owned next pointers of the
source, where no operation ever creates sharing or a cycle), and the
maintained size counter is kept separately, as in the source, so that
their agreement is a provable invariant rather than built in. The size is
an Int because JS counts with numbers. -/
structure DLinkedList (α : Type) where
  head : List α
  size : Int
deriving Repr

namespace DLinkedList

/-- The constructor: empty head, size 0. -/
def mkEmpty {α : Type} : DLinkedList α := ⟨[], 0⟩

/-- The add traversal: walk to the tail and link the new node there. -/
def appendTail {α : Type} : List α → α → List α
  | [], a => [a]
  | x :: xs, a => x :: appendTail xs a

/-- DLinkedList.add(data): append at the end, count up, return true. -/
def add {α : Type} (l : DLinkedList α) (data : α) : DLinkedList α × Bool :=
  (⟨appendTail l.head data, l.size + 1⟩, true)

/-- The remove traversal past the head node: drop the first node whose
payload equals data, report whether one was found. -/
def removeFirst {α : Type} [DecidableEq α] : List α → α → List α × Bool
  | [], _ => ([], false)
  | x :: xs, data =>
    if x = data then (xs, true)
    else
      let r := removeFirst xs data
      (x :: r.1, r.2)

/-- DLinkedList.remove(data): empty list fails; a matching head is
unlinked directly; otherwise the traversal unlinks the first match. -/
def remove {α : Type} [DecidableEq α] (l : DLinkedList α) (data : α) : DLinkedList α × Bool :=
  match l.head with
  | [] => (l, false)
  | h :: t =>
    if h = data then (⟨t, l.size - 1⟩, true)
    else
      let r := removeFirst t data
      if r.2 then (⟨h :: r.1, l.size - 1⟩, true) else (⟨h :: r.1, l.size⟩, false)

/-- The removeAt unlinking: drop the node at the given chain position. -/
def removeIdx {α : Type} : List α → Nat → List α
  | [], _ => []
  | _ :: t, 0 => t
  | x :: t, k + 1 => x :: removeIdx t k

/-- DLinkedList.removeAt(index): an index outside the valid range per the
stored size returns false without mutation, otherwise the node at the
index is unlinked and the count goes down. -/
def removeAt {α : Type} (l : DLinkedList α) (index : Int) : DLinkedList α × Bool :=
  if index < 0 ∨ l.size ≤ index then (l, false)
  else (⟨removeIdx l.head index.toNat, l.size - 1⟩, true)

/-- DLinkedList.get(index): an index outside the valid range per the
stored size returns the null sentinel (modelled as none), otherwise the
payload after walking index links. -/
def get {α : Type} (l : DLinkedList α) (index : Int) : Option α :=
  if index < 0 ∨ l.size ≤ index then none
  else (l.head.drop index.toNat).head?

/-- The contains traversal. -/
def containsGo {α : Type} [DecidableEq α] : List α → α → Bool
  | [], _ => false
  | x :: xs, data => if x = data then true else containsGo xs data

/-- DLinkedList.contains(data). -/
def contains {α : Type} [DecidableEq α] (l : DLinkedList α) (data : α) : Bool :=
  containsGo l.head data

/-- DLinkedList.getSize(): the maintained counter. -/
def getSize {α : Type} (l : DLinkedList α) : Int := l.size

/-- DLinkedList.isEmpty(). -/
def isEmpty {α : Type} (l : DLinkedList α) : Bool := l.size == 0

/-- The toArray traversal: push every payload head to tail into a fresh
array. -/
def toArrayGo {α : Type} : List α → List α
  | [] => []
  | x :: xs => x :: toArrayGo xs

/-- DLinkedList.toArray(). -/
def toArray {α : Type} (l : DLinkedList α) : List α := toArrayGo l.head

/-- DLinkedList.clear(): drop the head reference and reset the count. -/
def clear {α : Type} (_ : DLinkedList α) : DLinkedList α := ⟨[], 0⟩

/-- Add-only usage: add each element of xs in order. -/
def addAll {α : Type} (l : DLinkedList α) (xs : List α) : DLinkedList α :=
  xs.foldl (fun acc x => (add acc x).1) l

/-- The container invariant from the spec that is expressible in this
model: the maintained count equals the number of nodes reachable from
head (the chain itself is a Lean list, hence finite and acyclic). -/
def Inv {α : Type} (l : DLinkedList α) : Prop := l.size = (l.head.length : Int)

instance {α : Type} (l : DLinkedList α) : Decidable (Inv l) := by
  unfold Inv; infer_instance

end DLinkedList

/-- A store of JS array objects addressed by references, to state what
the sorts do and do not mutate: a reference is an index into the store,
reading a dangling reference yields the empty array (never exercised
under the theorems' hypotheses). -/
structure ArrStore where
  arrays : List (List Value)
deriving DecidableEq, Repr

def readArr (σ : ArrStore) (r : Nat) : List Value := (σ.arrays.get? r).getD []

def writeArr (σ : ArrStore) (r : Nat) (a : List Value) : ArrStore := ⟨σ.arrays.set r a⟩

/-- Allocating a fresh array object appends it to the store and returns
its reference. -/
def allocArr (σ : ArrStore) (a : List Value) : ArrStore × Nat :=
  (⟨σ.arrays ++ [a]⟩, σ.arrays.length)

namespace SelectionSort

/-- The outer selection-sort loop acting on the array object at reference
r in the store: each iteration reads the array, finds the extreme index
of the suffix and writes back the swapped array. Only r is ever written. -/
def sortLoopS (pref : Value → Value → Bool) (σ : ArrStore) (r : Nat) (i fuel : Nat) :
    ArrStore :=
  match fuel with
  | 0 => σ
  | f + 1 =>
    let l := readArr σ r
    let ext := scanFrom pref l i (i + 1) (l.length - (i + 1))
    let σ2 := if ext ≠ i then writeArr σ r (swap l i ext) else σ
    sortLoopS pref σ2 r (i + 1) f

/-- SelectionSort.sortNumericArray at the store level: the spread copy of
the input array allocates a fresh array object, and the in-place loop
then runs on the fresh object only; the reference to the copy is
returned. -/
def sortNumericArrayS (σ : ArrStore) (r : Nat) (ascending : Bool) : ArrStore × Nat :=
  let σr := allocArr σ (readArr σ r)
  if (readArr σr.1 σr.2).length ≤ 1 then σr
  else
    (sortLoopS (fun cur ext => if ascending then jsLt cur ext else jsGt cur ext)
      σr.1 σr.2 0 ((readArr σr.1 σr.2).length - 1), σr.2)

end SelectionSort

/-- A store of JS record objects addressed by references, to state that
the grade-annotated sort leaves the caller's records untouched. -/
structure RecStore where
  recs : List JsRec
deriving DecidableEq, Repr

def readRec (ρ : RecStore) (r : Nat) : JsRec := (ρ.recs.get? r).getD []

/-- Allocating a fresh record object appends it to the store and returns
its reference. -/
def allocRec (ρ : RecStore) (a : JsRec) : RecStore × Nat :=
  (⟨ρ.recs ++ [a]⟩, ρ.recs.length)

namespace SelectionSort

/-- The map phase of sortStudentsWithGrades at the store level: for each
input record reference, the spread builds a fresh annotated record
object; the input records are only read. -/
def annotateAll (ρ : RecStore) : List Nat → RecStore × List Nat
  | [] => (ρ, [])
  | s :: ss =>
    let a := allocRec ρ (annotateWithGrade (readRec ρ s))
    let rest := annotateAll a.1 ss
    (rest.1, a.2 :: rest.2)

/-- SelectionSort.sortStudentsWithGrades at the store level: annotate
into fresh records, then sort the fresh references by mark; the sort
itself permutes the reference array and performs no store writes. -/
def sortStudentsWithGradesS (ρ : RecStore) (students : List Nat) (ascending : Bool) :
    RecStore × List Nat :=
  let ar := annotateAll ρ students
  (ar.1, sortCore (fun cur ext =>
    if ascending then jsLt (getValue (readRec ar.1 cur) "mark") (getValue (readRec ar.1 ext) "mark")
    else jsGt (getValue (readRec ar.1 cur) "mark") (getValue (readRec ar.1 ext) "mark")) ar.2)

/-- Entry wrapper for sortNumericArray when the caller may pass null: the
spread of a null array throws a TypeError, modelled as Except.error;
otherwise the pure sort runs. -/
def sortNumericArrayJS (arr : Option (List Value)) (ascending : Bool) :
    Except String (List Value) :=
  match arr with
  | none => Except.error "TypeError"
  | some l => Except.ok (sortNumericArray l ascending)

/-- Entry wrapper for sortStudentsByMarks when the caller may pass null. -/
def sortStudentsByMarksJS (students : Option (List JsRec)) (sortBy : String)
    (ascending : Bool) : Except String (List JsRec) :=
  match students with
  | none => Except.error "TypeError"
  | some l => Except.ok (sortStudentsByMarks l sortBy ascending)

/-- Entry wrapper for sortTableData when the caller may pass null. -/
def sortTableDataJS (data : Option (List JsRec)) (sortBy : String) (ascending : Bool) :
    Except String (List JsRec) :=
  match data with
  | none => Except.error "TypeError"
  | some l => Except.ok (sortTableData l sortBy ascending)

end SelectionSort

/-! ## Properties of the shared sorting machinery -/

namespace SelectionSort

theorem swap_length {α : Type} (l : List α) (i j : Nat) : (swap l i j).length = l.length := by
  unfold swap
  split <;> simp

theorem count_set_add {α : Type} [DecidableEq α] (l : List α) (n : Nat) (b : α)
    (h : n < l.length) (x : α) :
    (l.set n b).count x + (if l.get ⟨n, h⟩ = x then 1 else 0)
      = l.count x + (if b = x then 1 else 0) := by
  have h1 : l.count x = (l.take n).count x + (l.drop n).count x := by
    conv_lhs => rw [← List.take_append_drop n l]
    exact List.count_append x (l.take n) (l.drop n)
  have h2 : (l.drop n).count x
      = (l.drop (n + 1)).count x + (if l.get ⟨n, h⟩ = x then 1 else 0) := by
    rw [List.drop_eq_getElem_cons h, List.count_cons]
    simp [List.get_eq_getElem]
  have h3 : (l.set n b).count x
      = (l.take n).count x + ((l.drop (n + 1)).count x + (if b = x then 1 else 0)) := by
    rw [List.set_eq_take_cons_drop b h, List.count_append, List.count_cons]
    simp
  omega

theorem swap_count {α : Type} [DecidableEq α] (l : List α) (i j : Nat) (x : α) :
    (swap l i j).count x = l.count x := by
  unfold swap
  split
  case isTrue hc =>
    obtain ⟨hij, hi, hj⟩ := hc
    have hj2 : j < (l.set i (l.get ⟨j, hj⟩)).length := by simpa using hj
    have e1 := count_set_add l i (l.get ⟨j, hj⟩) hi x
    have e2 := count_set_add (l.set i (l.get ⟨j, hj⟩)) j (l.get ⟨i, hi⟩) hj2 x
    have hsame : (l.set i (l.get ⟨j, hj⟩)).get ⟨j, hj2⟩ = l.get ⟨j, hj⟩ := by
      simp only [List.get_eq_getElem]
      exact List.getElem_set_ne hij _
    rw [hsame] at e2
    omega
  case isFalse => rfl

theorem swap_perm {α : Type} [DecidableEq α] (l : List α) (i j : Nat) :
    (swap l i j).Perm l :=
  List.perm_iff_count.mpr (fun x => swap_count l i j x)

theorem getElem?_swap_ne {α : Type} (l : List α) (i j q : Nat) (hqi : q ≠ i) (hqj : q ≠ j) :
    (swap l i j).get? q = l.get? q := by
  unfold swap
  split
  · simp only [List.get?_eq_getElem?]
    rw [List.getElem?_set_ne (Ne.symm hqj), List.getElem?_set_ne (Ne.symm hqi)]
  · rfl

theorem getElem?_swap_fst {α : Type} (l : List α) (i j : Nat) (hij : i ≠ j)
    (hi : i < l.length) (hj : j < l.length) :
    (swap l i j).get? i = l.get? j := by
  unfold swap
  rw [dif_pos ⟨hij, hi, hj⟩]
  simp only [List.get?_eq_getElem?]
  rw [List.getElem?_set_ne (Ne.symm hij), List.getElem?_set_self (by simpa using hi)]
  simp [List.getElem?_eq_getElem hj, List.get_eq_getElem]

theorem getElem?_swap_snd {α : Type} (l : List α) (i j : Nat) (hij : i ≠ j)
    (hi : i < l.length) (hj : j < l.length) :
    (swap l i j).get? j = l.get? i := by
  unfold swap
  rw [dif_pos ⟨hij, hi, hj⟩]
  simp only [List.get?_eq_getElem?]
  rw [List.getElem?_set_self (by simpa using hj)]
  simp [List.getElem?_eq_getElem hi, List.get_eq_getElem]

theorem getElem?_swap_cases {α : Type} (l : List α) (i j q : Nat) :
    (swap l i j).get? q = l.get? q ∨ (swap l i j).get? q = l.get? i
      ∨ (swap l i j).get? q = l.get? j := by
  by_cases hcond : i ≠ j ∧ i < l.length ∧ j < l.length
  · obtain ⟨hij, hi, hj⟩ := hcond
    by_cases hqi : q = i
    · subst hqi
      right; right
      exact getElem?_swap_fst l q j hij hi hj
    · by_cases hqj : q = j
      · subst hqj
        right; left
        exact getElem?_swap_snd l i q hij hi hj
      · left
        exact getElem?_swap_ne l i j q hqi hqj
  · left
    unfold swap
    rw [dif_neg hcond]

end SelectionSort

namespace SelectionSort

theorem scanFrom_range {α : Type} (pref : α → α → Bool) (l : List α) :
    ∀ fuel ext j, scanFrom pref l ext j fuel = ext
      ∨ (j ≤ scanFrom pref l ext j fuel ∧ scanFrom pref l ext j fuel < j + fuel) := by
  intro fuel
  induction fuel with
  | zero => intro ext j; left; rfl
  | succ f ih =>
    intro ext j
    cases h1 : l.get? j with
    | none => left; simp only [scanFrom, h1]
    | some cur =>
      cases h2 : l.get? ext with
      | none => left; simp only [scanFrom, h1, h2]
      | some e =>
        have hred : scanFrom pref l ext j (f + 1)
            = scanFrom pref l (if pref cur e then j else ext) (j + 1) f := by
          simp only [scanFrom, h1, h2]
        rw [hred]
        rcases ih (if pref cur e then j else ext) (j + 1) with he | ⟨hle, hlt⟩
        · rw [he]
          by_cases hp : pref cur e = true
        
          · rw [if_pos hp]; right; omega
          · rw [if_neg hp]; left; rfl
        · right; omega

theorem scanFrom_best {α : Type} (pref : α → α → Bool) (LE : α → α → Prop)
    (Q : α → Prop) (l : List α)
    (hQ : ∀ x ∈ l, Q x)
    (htrue : ∀ c e, Q c → Q e → pref c e = true → LE c e)
    (hfalse : ∀ c e, Q c → Q e → pref c e = false → LE e c)
    (htrans : ∀ a b c, Q a → Q b → Q c → LE a b → LE b c → LE a c) :
    ∀ fuel ext j v, l.get? (scanFrom pref l ext j fuel) = some v →
      (∀ e, l.get? ext = some e → LE v e) ∧
      (∀ q, j ≤ q → q < j + fuel → ∀ x, l.get? q = some x → LE v x) := by
  have hrefl : ∀ v, v ∈ l → LE v v := by
    intro v hv
    cases hp : pref v v with
    | true => exact htrue v v (hQ v hv) (hQ v hv) hp
    | false => exact hfalse v v (hQ v hv) (hQ v hv) hp
  intro fuel
  induction fuel with
  | zero =>
    intro ext j v hv
    refine ⟨?_, ?_⟩
    · intro e he
      have : v = e := by
        have : some v = some e := by rw [← hv, ← he]; rfl
        exact Option.some.inj this
      subst this
      exact hrefl v (List.get?_mem hv)
    · intro q hq1 hq2
      omega
  | succ f ih =>
    intro ext j v hv
    cases h1 : l.get? j with
    | none =>
      have hred : scanFrom pref l ext j (f + 1) = ext := by simp only [scanFrom, h1]
      rw [hred] at hv
      have hlen : l.length ≤ j := List.get?_eq_none.mp h1
      refine ⟨?_, ?_⟩
      · intro e he
        have : v = e := Option.some.inj (by rw [← hv, ← he])
        subst this
        exact hrefl v (List.get?_mem hv)
      · intro q hq1 hq2 x hx
        have : l.length ≤ q := le_trans hlen hq1
        rw [List.get?_eq_none.mpr this] at hx
        exact absurd hx (by simp)
    | some cur =>
      cases h2 : l.get? ext with
      | none =>
        have hred : scanFrom pref l ext j (f + 1) = ext := by simp only [scanFrom, h1, h2]
        rw [hred] at hv
        rw [hv] at h2
        exact absurd h2 (by simp)
      | some e0 =>
        have hred : scanFrom pref l ext j (f + 1)
            = scanFrom pref l (if pref cur e0 then j else ext) (j + 1) f := by
          simp only [scanFrom, h1, h2]
        rw [hred] at hv
        have hQv : Q v := hQ v (List.get?_mem hv)
        have hQc : Q cur := hQ cur (List.get?_mem h1)
        have hQe : Q e0 := hQ e0 (List.get?_mem h2)
        obtain ⟨ha, hb⟩ := ih (if pref cur e0 then j else ext) (j + 1) v hv
        by_cases hp : pref cur e0 = true
        · rw [if_pos hp] at ha
          have hvc : LE v cur := ha cur h1
          have hce : LE cur e0 := htrue cur e0 hQc hQe hp
          refine ⟨?_, ?_⟩
          · intro e he
            have : e = e0 := Option.some.inj (by rw [← he, ← h2])
            subst this
            exact htrans v cur e hQv hQc hQe hvc hce
          · intro q hq1 hq2 x hx
            rcases Nat.eq_or_lt_of_le hq1 with hq | hq
            · rw [← hq, h1] at hx
              cases Option.some.inj hx
              exact hvc
            · exact hb q hq (by omega) x hx
        · rw [if_neg hp] at ha
          have hve : LE v e0 := ha e0 h2
          have hec : LE e0 cur :=
            hfalse cur e0 hQc hQe (by simpa using hp)
          refine ⟨?_, ?_⟩
          · intro e he
            have : e = e0 := Option.some.inj (by rw [← he, ← h2])
            subst this
            exact hve
          · intro q hq1 hq2 x hx
            rcases Nat.eq_or_lt_of_le hq1 with hq | hq
            · rw [← hq, h1] at hx
              cases Option.some.inj hx
              exact htrans v e0 cur hQv hQe hQc hve hec
            · exact hb q hq (by omega) x hx

end SelectionSort

namespace SelectionSort

theorem sortStep_length {α : Type} (pref : α → α → Bool) (l : List α) (i : Nat) :
    (sortStep pref l i).length = l.length := by
  unfold sortStep
  split
  · exact swap_length l i _
  · rfl

theorem sortStep_perm {α : Type} [DecidableEq α] (pref : α → α → Bool) (l : List α) (i : Nat) :
    (sortStep pref l i).Perm l := by
  unfold sortStep
  split
  · exact swap_perm l i _
  · exact List.Perm.refl l

theorem sortLoop_perm {α : Type} [DecidableEq α] (pref : α → α → Bool) :
    ∀ fuel (l : List α) (i : Nat), (sortLoop pref l i fuel).Perm l := by
  intro fuel
  induction fuel with
  | zero => intro l i; exact List.Perm.refl l
  | succ f ih =>
    intro l i
    exact List.Perm.trans (ih (sortStep pref l i) (i + 1)) (sortStep_perm pref l i)

theorem sortCore_perm {α : Type} [DecidableEq α] (pref : α → α → Bool) (l : List α) :
    (sortCore pref l).Perm l := by
  unfold sortCore
  split
  · exact List.Perm.refl l
  · exact sortLoop_perm pref (l.length - 1) l 0

theorem sortLoop_pairwise {α : Type} [DecidableEq α] (pref : α → α → Bool)
    (LE : α → α → Prop) (Q : α → Prop)
    (htrue : ∀ c e, Q c → Q e → pref c e = true → LE c e)
    (hfalse : ∀ c e, Q c → Q e → pref c e = false → LE e c)
    (htrans : ∀ a b c, Q a → Q b → Q c → LE a b → LE b c → LE a c) :
    ∀ fuel (l : List α) (i : Nat),
      (∀ x ∈ l, Q x) →
      i + fuel + 1 = l.length →
      (∀ p q x y, p < i → p < q → l.get? p = some x → l.get? q = some y → LE x y) →
      ∀ p q x y, p < i + fuel → p < q →
        (sortLoop pref l i fuel).get? p = some x →
        (sortLoop pref l i fuel).get? q = some y → LE x y := by
  have hrefl : ∀ (l : List α) v, v ∈ l → (∀ x ∈ l, Q x) → LE v v := by
    intro l v hv hQ
    cases hp : pref v v with
    | true => exact htrue v v (hQ v hv) (hQ v hv) hp
    | false => exact hfalse v v (hQ v hv) (hQ v hv) hp
  intro fuel
  induction fuel with
  | zero =>
    intro l i hQ hlen hinv p q x y hp hpq hx hy
    exact hinv p q x y (by omega) hpq hx hy
  | succ f ih =>
    intro l i hQ hlen hinv p q x y hp hpq hx hy
    have hred : sortLoop pref l i (f + 1) = sortLoop pref (sortStep pref l i) (i + 1) f := rfl
    rw [hred] at hx hy
    have hrange : i ≤ scanFrom pref l i (i + 1) (l.length - (i + 1))
        ∧ scanFrom pref l i (i + 1) (l.length - (i + 1)) < l.length := by
      rcases scanFrom_range pref l (l.length - (i + 1)) i (i + 1) with he | ⟨h1, h2⟩
      · omega
      · omega
    -- positional description of the step
    have hF1 : ∀ r, r < i → (sortStep pref l i).get? r = l.get? r := by
      intro r hr
      unfold sortStep
      split
      · exact getElem?_swap_ne l i _ r (by omega) (by omega)
      · rfl
    have hF2 : (sortStep pref l i).get? i
        = l.get? (scanFrom pref l i (i + 1) (l.length - (i + 1))) := by
      unfold sortStep
      split
      case isTrue hne => exact getElem?_swap_fst l i _ (Ne.symm hne) (by omega) hrange.2
      case isFalse hne =>
        have : scanFrom pref l i (i + 1) (l.length - (i + 1)) = i := by
          by_contra hc
          exact hne hc
        rw [this]
    have hF3 : ∀ r, (sortStep pref l i).get? r = l.get? r
        ∨ (sortStep pref l i).get? r = l.get? i
        ∨ (sortStep pref l i).get? r
            = l.get? (scanFrom pref l i (i + 1) (l.length - (i + 1))) := by
      intro r
      unfold sortStep
      split
      · exact getElem?_swap_cases l i _ r
      · left; rfl
    -- the scan result is the selected extreme of the suffix
    have hscan := scanFrom_best pref LE Q l hQ htrue hfalse htrans
      (l.length - (i + 1)) i (i + 1)
    -- hypotheses of the induction step
    have hQ2 : ∀ x ∈ sortStep pref l i, Q x := by
      intro z hz
      exact hQ z ((sortStep_perm pref l i).mem_iff.mp hz)
    have hlen2 : (i + 1) + f + 1 = (sortStep pref l i).length := by
      rw [sortStep_length]; omega
    have hinv2 : ∀ p q x y, p < i + 1 → p < q →
        (sortStep pref l i).get? p = some x →
        (sortStep pref l i).get? q = some y → LE x y := by
      intro p q x y hp hpq hx hy
      rcases Nat.lt_or_ge p i with hpi | hpi
      · -- the already sorted strict prefix is untouched and still dominates
        rw [hF1 p hpi] at hx
        rcases hF3 q with hq | hq | hq
        · rw [hq] at hy
          exact hinv p q x y hpi hpq hx hy
        · rw [hq] at hy
          exact hinv p i x y hpi hpi hx hy
        · rw [hq] at hy
          exact hinv p _ x y hpi (by omega) hx hy
      · -- p = i : the freshly selected extreme dominates the suffix
        have hpi2 : p = i := by omega
        subst hpi2
        rw [hF2] at hx
        obtain ⟨ha, hb⟩ := hscan x hx
        have hqlen : q < l.length := by
          obtain ⟨hlt, _⟩ := List.get?_eq_some.mp hy
          rwa [sortStep_length] at hlt
        rcases hF3 q with hq | hq | hq
        · rw [hq] at hy
          exact hb q (by omega) (by omega) y hy
        · rw [hq] at hy
          exact ha y hy
        · rw [hq, hx] at hy
          cases Option.some.inj hy
          exact hrefl l x (List.get?_mem hx) hQ
    exact ih (sortStep pref l i) (i + 1) hQ2 hlen2 hinv2 p q x y (by omega) hpq hx hy

theorem sortCore_pairwise {α : Type} [DecidableEq α] (pref : α → α → Bool)
    (LE : α → α → Prop) (Q : α → Prop)
    (htrue : ∀ c e, Q c → Q e → pref c e = true → LE c e)
    (hfalse : ∀ c e, Q c → Q e → pref c e = false → LE e c)
    (htrans : ∀ a b c, Q a → Q b → Q c → LE a b → LE b c → LE a c)
    (l : List α) (hQ : ∀ x ∈ l, Q x) :
    ∀ p q x y, p < q → (sortCore pref l).get? p = some x →
      (sortCore pref l).get? q = some y → LE x y := by
  intro p q x y hpq hx hy
  unfold sortCore at hx hy
  by_cases hlen : l.length ≤ 1
  · rw [if_pos hlen] at hx hy
    obtain ⟨hpl, _⟩ := List.get?_eq_some.mp hx
    obtain ⟨hql, _⟩ := List.get?_eq_some.mp hy
    omega
  · rw [if_neg hlen] at hx hy
    have hql : q < l.length := by
      have := (List.get?_eq_some.mp hy).1
      have hperm := sortLoop_perm pref (l.length - 1) l 0
      rwa [List.Perm.length_eq hperm] at this
    exact sortLoop_pairwise pref LE Q htrue hfalse htrans (l.length - 1) l 0 hQ
      (by omega) (by intro p q x y hp _ _ _; omega) p q x y (by omega) hpq hx hy

end SelectionSort

/-! ## Properties of the comparison rule -/

theorem natOrd_swap (m n : Nat) : natOrd m n = (natOrd n m).swap := by
  unfold natOrd
  split_ifs <;> first | rfl | omega

theorem natOrd_ne_gt (m n : Nat) : natOrd m n ≠ .gt ↔ m ≤ n := by
  unfold natOrd
  split_ifs <;> simp <;> omega

theorem tokCmp_swap (a b : Tok) : tokCmp a b = (tokCmp b a).swap := by
  cases a <;> cases b <;> simp only [tokCmp] <;> first | rfl | apply natOrd_swap

theorem tokCmp_eq_iff (a b : Tok) : tokCmp a b = .eq ↔ a = b := by
  cases a <;> cases b <;> simp only [tokCmp, natOrd] <;>
    first
      | (split_ifs <;> simp_all <;> omega)
      | simp

theorem tokCmp_lt_trans {a b c : Tok} (h1 : tokCmp a b = .lt) (h2 : tokCmp b c = .lt) :
    tokCmp a c = .lt := by
  cases a <;> cases b <;> cases c <;>
    simp only [tokCmp, natOrd] at * <;> split_ifs at * <;> simp_all <;> omega

theorem lexCmp_swap : ∀ s t : List Tok, lexCmp s t = (lexCmp t s).swap := by
  intro s
  induction s with
  | nil => intro t; cases t <;> rfl
  | cons a ta ih =>
    intro t
    cases t with
    | nil => rfl
    | cons b tb =>
      show (match tokCmp a b with | .eq => lexCmp ta tb | o => o)
          = (match tokCmp b a with | .eq => lexCmp tb ta | o => o).swap
      rw [tokCmp_swap a b]
      cases h : tokCmp b a <;> simp [Ordering.swap, ih tb]

theorem lexCmp_le_trans : ∀ s t u : List Tok,
    lexCmp s t ≠ .gt → lexCmp t u ≠ .gt → lexCmp s u ≠ .gt := by
  intro s
  induction s with
  | nil =>
    intro t u h1 h2
    cases u <;> simp [lexCmp]
  | cons a ta ih =>
    intro t u h1 h2
    cases t with
    | nil => exact absurd rfl h1
    | cons b tb =>
      cases u with
      | nil => exact absurd rfl h2
      | cons c tc =>
        have h1m : (match tokCmp a b with | .eq => lexCmp ta tb | o => o) ≠ .gt := h1
        have h2m : (match tokCmp b c with | .eq => lexCmp tb tc | o => o) ≠ .gt := h2
        show (match tokCmp a c with | .eq => lexCmp ta tc | o => o) ≠ .gt
        cases hab : tokCmp a b with
        | gt => rw [hab] at h1m; exact absurd rfl h1m
        | eq =>
          cases (tokCmp_eq_iff a b).mp hab
          rw [hab] at h1m
          cases hbc : tokCmp a c with
          | gt => rw [hbc] at h2m; exact absurd rfl h2m
          | eq =>
            rw [hbc] at h2m
            exact ih tb tc h1m h2m
          | lt => simp
        | lt =>
          rw [hab] at h1m
          cases hbc : tokCmp b c with
          | gt => rw [hbc] at h2m; exact absurd rfl h2m
          | eq =>
            cases (tokCmp_eq_iff b c).mp hbc
            rw [hab]
            simp
          | lt =>
            rw [tokCmp_lt_trans hab hbc]
            simp

theorem ordInt_nonpos (o : Ordering) : ordInt o ≤ 0 ↔ o ≠ .gt := by
  cases o <;> decide

theorem strCmp_neg (x y : String) : strCmp x y = -(strCmp y x) := by
  unfold strCmp
  rw [lexCmp_swap]
  cases lexCmp (tokenize y.data) (tokenize x.data) <;> rfl

theorem strCmp_trans {x y z : String} (h1 : strCmp x y ≤ 0) (h2 : strCmp y z ≤ 0) :
    strCmp x z ≤ 0 := by
  unfold strCmp at h1 h2 ⊢
  rw [ordInt_nonpos] at h1 h2 ⊢
  exact lexCmp_le_trans _ _ _ h1 h2

namespace SelectionSort

theorem compare_neg (a b : Value) : compare a b = -(compare b a) := by
  rcases a with _ | _ | na | sa <;> rcases b with _ | _ | nb | sb <;>
    simp [compare, Value.absent, Value.jsToString] <;>
    first
      | rfl
      | omega
      | exact strCmp_neg _ _

theorem compare_absent_left {a b : Value} (ha : a.absent = true) : 0 ≤ compare a b := by
  rcases hb : b.absent <;> simp [compare, ha, hb]

theorem compare_absent_right {a b : Value} (ha : a.absent = false) (hb : b.absent = true) :
    compare a b = -1 := by
  simp [compare, ha, hb]

theorem compare_trans_num {a b c : Value}
    (hA : a.numOrAbsent = true) (hB : b.numOrAbsent = true) (hC : c.numOrAbsent = true)
    (h1 : compare a b ≤ 0) (h2 : compare b c ≤ 0) : compare a c ≤ 0 := by
  rcases a with _ | _ | na | sa <;> rcases b with _ | _ | nb | sb <;>
    rcases c with _ | _ | nc | sc <;>
    simp_all [compare, Value.absent, Value.numOrAbsent] <;> omega

theorem compare_trans_str {a b c : Value}
    (hA : a.strOrAbsent = true) (hB : b.strOrAbsent = true) (hC : c.strOrAbsent = true)
    (h1 : compare a b ≤ 0) (h2 : compare b c ≤ 0) : compare a c ≤ 0 := by
  rcases a with _ | _ | na | sa <;> rcases b with _ | _ | nb | sb <;>
    rcases c with _ | _ | nc | sc <;>
    simp_all [compare, Value.absent, Value.strOrAbsent] <;>
    first
      | omega
      | exact strCmp_trans h1 h2

end SelectionSort

/-! ## Properties of the store-level sorts (what is and is not mutated) -/

theorem readArr_writeArr_ne (σ : ArrStore) (r q : Nat) (a : List Value) (h : q ≠ r) :
    readArr (writeArr σ r a) q = readArr σ q := by
  unfold readArr writeArr
  simp only [List.get?_eq_getElem?]
  rw [List.getElem?_set_ne (Ne.symm h)]

theorem readArr_writeArr_self (σ : ArrStore) (r : Nat) (a : List Value)
    (h : r < σ.arrays.length) : readArr (writeArr σ r a) r = a := by
  unfold readArr writeArr
  simp only [List.get?_eq_getElem?]
  rw [List.getElem?_set_self h]
  rfl

theorem writeArr_length (σ : ArrStore) (r : Nat) (a : List Value) :
    (writeArr σ r a).arrays.length = σ.arrays.length := by
  unfold writeArr
  exact List.length_set σ.arrays r a

theorem readArr_allocArr_old (σ : ArrStore) (a : List Value) (q : Nat)
    (h : q < σ.arrays.length) : readArr (allocArr σ a).1 q = readArr σ q := by
  unfold readArr allocArr
  simp only [List.get?_eq_getElem?]
  rw [List.getElem?_append]
  rw [if_pos h]

theorem readArr_allocArr_new (σ : ArrStore) (a : List Value) :
    readArr (allocArr σ a).1 (allocArr σ a).2 = a := by
  unfold readArr allocArr
  simp

namespace SelectionSort

theorem sortLoopS_frame (pref : Value → Value → Bool) :
    ∀ fuel (σ : ArrStore) (r i q : Nat), q ≠ r →
      readArr (sortLoopS pref σ r i fuel) q = readArr σ q := by
  intro fuel
  induction fuel with
  | zero => intro σ r i q _; rfl
  | succ f ih =>
    intro σ r i q hq
    show readArr (sortLoopS pref
      (if scanFrom pref (readArr σ r) i (i + 1) ((readArr σ r).length - (i + 1)) ≠ i
        then writeArr σ r (swap (readArr σ r) i
          (scanFrom pref (readArr σ r) i (i + 1) ((readArr σ r).length - (i + 1))))
        else σ) r (i + 1) f) q = readArr σ q
    rw [ih _ r (i + 1) q hq]
    split
    · exact readArr_writeArr_ne σ r q _ hq
    · rfl

theorem sortLoopS_length (pref : Value → Value → Bool) :
    ∀ fuel (σ : ArrStore) (r i : Nat),
      (sortLoopS pref σ r i fuel).arrays.length = σ.arrays.length := by
  intro fuel
  induction fuel with
  | zero => intro σ r i; rfl
  | succ f ih =>
    intro σ r i
    show (sortLoopS pref (if _ ≠ i then writeArr σ r _ else σ) r (i + 1) f).arrays.length = _
    rw [ih]
    split
    · exact writeArr_length σ r _
    · rfl

theorem sortLoopS_tracks (pref : Value → Value → Bool) :
    ∀ fuel (σ : ArrStore) (r i : Nat), r < σ.arrays.length →
      readArr (sortLoopS pref σ r i fuel) r = sortLoop pref (readArr σ r) i fuel := by
  intro fuel
  induction fuel with
  | zero => intro σ r i _; rfl
  | succ f ih =>
    intro σ r i hr
    show readArr (sortLoopS pref
      (if scanFrom pref (readArr σ r) i (i + 1) ((readArr σ r).length - (i + 1)) ≠ i
        then writeArr σ r (swap (readArr σ r) i
          (scanFrom pref (readArr σ r) i (i + 1) ((readArr σ r).length - (i + 1))))
        else σ) r (i + 1) f) r
      = sortLoop pref (sortStep pref (readArr σ r) i) (i + 1) f
    split
    case isTrue hne =>
      rw [ih _ r (i + 1) (by rw [writeArr_length]; exact hr)]
      rw [readArr_writeArr_self σ r _ hr]
      unfold sortStep
      rw [if_pos hne]
    case isFalse hne =>
      rw [ih _ r (i + 1) hr]
      unfold sortStep
      rw [if_neg hne]

theorem annotateAll_frame :
    ∀ (ss : List Nat) (ρ : RecStore) (q : Nat), q < ρ.recs.length →
      readRec (annotateAll ρ ss).1 q = readRec ρ q := by
  intro ss
  induction ss with
  | nil => intro ρ q _; rfl
  | cons s ss ih =>
    intro ρ q hq
    show readRec (annotateAll (allocRec ρ (annotateWithGrade (readRec ρ s))).1 ss).1 q
        = readRec ρ q
    rw [ih _ q (by simp [allocRec]; omega)]
    unfold readRec allocRec
    simp only [List.get?_eq_getElem?]
    rw [List.getElem?_append, if_pos hq]

end SelectionSort

/-! ## Properties of the linked-list container -/

namespace DLinkedList

theorem appendTail_eq {α : Type} : ∀ (l : List α) (a : α), appendTail l a = l ++ [a] := by
  intro l a
  induction l with
  | nil => rfl
  | cons x xs ih => show x :: appendTail xs a = x :: (xs ++ [a]); rw [ih]

theorem removeFirst_spec {α : Type} [DecidableEq α] :
    ∀ (t : List α) (d : α),
      (removeFirst t d).1.length + (if (removeFirst t d).2 then 1 else 0) = t.length := by
  intro t d
  induction t with
  | nil => rfl
  | cons x xs ih =>
    show (if x = d then (xs, true)
        else ((x :: (removeFirst xs d).1), (removeFirst xs d).2)).1.length
      + (if (if x = d then (xs, true)
        else ((x :: (removeFirst xs d).1), (removeFirst xs d).2)).2 then 1 else 0)
      = xs.length + 1
    split
    · simp
    · simp only [List.length_cons]
      omega

theorem removeIdx_length {α : Type} :
    ∀ (l : List α) (k : Nat), k < l.length → (removeIdx l k).length = l.length - 1 := by
  intro l
  induction l with
  | nil => intro k hk; simp at hk
  | cons x xs ih =>
    intro k hk
    cases k with
    | zero => simp [removeIdx]
    | succ k2 =>
      show (x :: removeIdx xs k2).length = (x :: xs).length - 1
      simp only [List.length_cons] at hk ⊢
      rw [ih k2 (by omega)]
      omega

theorem toArrayGo_eq {α : Type} : ∀ (l : List α), toArrayGo l = l := by
  intro l
  induction l with
  | nil => rfl
  | cons x xs ih => show x :: toArrayGo xs = x :: xs; rw [ih]

theorem addAll_head {α : Type} :
    ∀ (xs : List α) (l : DLinkedList α), (addAll l xs).head = l.head ++ xs := by
  intro xs
  induction xs with
  | nil => intro l; show l.head = l.head ++ []; simp
  | cons x xs ih =>
    intro l
    show (addAll (add l x).1 xs).head = l.head ++ (x :: xs)
    rw [ih]
    show appendTail l.head x ++ xs = _
    rw [appendTail_eq]
    simp

end DLinkedList

namespace SelectionSort

theorem fieldLookup_annotate_grade (s : JsRec) :
    fieldLookup (annotateWithGrade s) "grade"
      = Value.vstr (calculateGrade (jsOr (fieldLookup s "mark") (Value.vnum 0))) := rfl

theorem fieldLookup_annotate_mark (s : JsRec) :
    fieldLookup (annotateWithGrade s) "mark" = fieldLookup s "mark" := rfl

end SelectionSort

/-! ## Claim theorems -/

open SelectionSort

/-- C1 counterexample: the claim that absent field values always end up
after present ones, in both directions and in all sort entry points, is
false on the code. sortTableData with descending order places a
null-mark record first (compare treats null as maximal, and the
descending scan selects the maximum first), and sortStudentsByMarks with
ascending order places a null-mark record first (the raw JS < coerces
null to 0). -/
theorem C1_counterexample :
    sortTableData [[("mark", Value.vnum 1)], [("mark", Value.vnull)]] "mark" false
      = [[("mark", Value.vnull)], [("mark", Value.vnum 1)]] ∧
    (SelectionSort.getValue [("mark", Value.vnull)] "mark").absent = true ∧
    (SelectionSort.getValue [("mark", Value.vnum 1)] "mark").absent = false ∧
    sortStudentsByMarks
        [[("mark", Value.vnum 85)], [("mark", Value.vnull)], [("mark", Value.vnum 78)]]
        "mark" true
      = [[("mark", Value.vnull)], [("mark", Value.vnum 78)], [("mark", Value.vnum 85)]] := by
  refine ⟨?_, ?_, ?_, ?_⟩ <;> decide

/-- C1 (amended): in the result of sortTableData with the ascending flag,
every record whose selected field value is null or undefined (absent) is
positioned after every record whose field value is present; the
descending direction and the raw-comparison entry point
sortStudentsByMarks do not have this property. Stated as: an absent
value at an earlier position forces every later value to be absent. -/
theorem C1_tableData_ascending_absent_last (data : List JsRec) (sortBy : String)
    (p q : Nat) (hpq : p < q) (x y : JsRec)
    (hx : (sortTableData data sortBy true).get? p = some x)
    (hy : (sortTableData data sortBy true).get? q = some y)
    (hax : (SelectionSort.getValue x sortBy).absent = true) :
    (SelectionSort.getValue y sortBy).absent = true := by
  unfold sortTableData at hx hy
  refine sortCore_pairwise _
    (fun u v => (SelectionSort.getValue u sortBy).absent = true →
      (SelectionSort.getValue v sortBy).absent = true)
    (fun _ => True) ?_ ?_ ?_ data (fun _ _ => trivial) p q x y hpq hx hy hax
  · intro c e _ _ hp hc
    exfalso
    have hlt : SelectionSort.compare (SelectionSort.getValue c sortBy)
        (SelectionSort.getValue e sortBy) < 0 := by simpa using hp
    have := compare_absent_left
      (a := SelectionSort.getValue c sortBy) (b := SelectionSort.getValue e sortBy) hc
    omega
  · intro c e _ _ hp he
    cases hc2 : (SelectionSort.getValue c sortBy).absent with
    | true => rfl
    | false =>
      exfalso
      have hm1 : SelectionSort.compare (SelectionSort.getValue c sortBy)
          (SelectionSort.getValue e sortBy) = -1 := compare_absent_right hc2 he
      have hnlt : ¬ SelectionSort.compare (SelectionSort.getValue c sortBy)
          (SelectionSort.getValue e sortBy) < 0 := by simpa using hp
      omega
  · intro a b c _ _ _ h1 h2 ha
    exact h2 (h1 ha)

/-- C1 witness: a concrete run of the amended statement, on a two-record
table whose values are null and undefined. -/
theorem C1_witness :
    (SelectionSort.getValue [("m", Value.vundef)] "m").absent = true :=
  C1_tableData_ascending_absent_last [[("m", Value.vnull)], [("m", Value.vundef)]] "m"
    0 1 (by decide) [("m", Value.vnull)] [("m", Value.vundef)]
    (by decide) (by decide) (by decide)

/-- C2: each sort entry point returns a sequence with the same length and
the same multiset of elements as its input (the output is a permutation
of the input). -/
theorem C2_sort_permutation :
    (∀ (arr : List Value) (ascending : Bool),
      (sortNumericArray arr ascending).length = arr.length ∧
      (sortNumericArray arr ascending).Perm arr) ∧
    (∀ (students : List JsRec) (sortBy : String) (ascending : Bool),
      (sortStudentsByMarks students sortBy ascending).length = students.length ∧
      (sortStudentsByMarks students sortBy ascending).Perm students) ∧
    (∀ (data : List JsRec) (sortBy : String) (ascending : Bool),
      (sortTableData data sortBy ascending).length = data.length ∧
      (sortTableData data sortBy ascending).Perm data) := by
  refine ⟨fun arr ascending => ?_, fun students sortBy ascending => ?_,
    fun data sortBy ascending => ?_⟩
  · exact ⟨(sortCore_perm _ arr).length_eq, sortCore_perm _ arr⟩
  · exact ⟨(sortCore_perm _ students).length_eq, sortCore_perm _ students⟩
  · exact ⟨(sortCore_perm _ data).length_eq, sortCore_perm _ data⟩

/-- C3 counterexample: with mixed numeric and string field values the
type-aware comparison is not transitive (a negative number compares with
a string through its decimal representation, where the minus sign is an
ordinary character and the digits compare numerically), and the claimed
adjacent-pair ordering fails: sorting the field values -1, "-1", -2
ascending yields -2, "-1", -1, whose first adjacent pair is present on
both sides yet compares greater than zero. -/
theorem C3_counterexample :
    sortTableData [[("v", Value.vnum (-1))], [("v", Value.vstr "-1")],
        [("v", Value.vnum (-2))]] "v" true
      = [[("v", Value.vnum (-2))], [("v", Value.vstr "-1")], [("v", Value.vnum (-1))]] ∧
    (SelectionSort.getValue [("v", Value.vnum (-2))] "v").absent = false ∧
    (SelectionSort.getValue [("v", Value.vstr "-1")] "v").absent = false ∧
    SelectionSort.compare (SelectionSort.getValue [("v", Value.vnum (-2))] "v")
      (SelectionSort.getValue [("v", Value.vstr "-1")] "v") = 1 := by
  refine ⟨?_, ?_, ?_, ?_⟩ <;> decide

/-- C3 (amended): for ascending sortTableData on inputs whose selected
field values are homogeneous (all numeric or absent, or all string or
absent), every adjacent pair (x, y) of the result with both field values
present satisfies compare(field x, field y) ≤ 0. -/
theorem C3_ascending_adjacent_sorted (data : List JsRec) (sortBy : String)
    (hhomog : (∀ r ∈ data, (SelectionSort.getValue r sortBy).numOrAbsent = true)
      ∨ (∀ r ∈ data, (SelectionSort.getValue r sortBy).strOrAbsent = true))
    (k : Nat) (x y : JsRec)
    (hx : (sortTableData data sortBy true).get? k = some x)
    (hy : (sortTableData data sortBy true).get? (k + 1) = some y)
    (hax : (SelectionSort.getValue x sortBy).absent = false)
    (hay : (SelectionSort.getValue y sortBy).absent = false) :
    SelectionSort.compare (SelectionSort.getValue x sortBy)
      (SelectionSort.getValue y sortBy) ≤ 0 := by
  unfold sortTableData at hx hy
  have htrue2 : ∀ (Q : JsRec → Prop) c e, Q c → Q e →
      ((fun cur ext =>
        if (true : Bool) = true
        then decide (SelectionSort.compare (SelectionSort.getValue cur sortBy)
          (SelectionSort.getValue ext sortBy) < 0)
        else decide (SelectionSort.compare (SelectionSort.getValue cur sortBy)
          (SelectionSort.getValue ext sortBy) > 0)) c e) = true →
      SelectionSort.compare (SelectionSort.getValue c sortBy)
        (SelectionSort.getValue e sortBy) ≤ 0 := by
    intro Q c e _ _ hp
    have : SelectionSort.compare (SelectionSort.getValue c sortBy)
        (SelectionSort.getValue e sortBy) < 0 := by simpa using hp
    omega
  have hfalse2 : ∀ (Q : JsRec → Prop) c e, Q c → Q e →
      ((fun cur ext =>
        if (true : Bool) = true
        then decide (SelectionSort.compare (SelectionSort.getValue cur sortBy)
          (SelectionSort.getValue ext sortBy) < 0)
        else decide (SelectionSort.compare (SelectionSort.getValue cur sortBy)
          (SelectionSort.getValue ext sortBy) > 0)) c e) = false →
      SelectionSort.compare (SelectionSort.getValue e sortBy)
        (SelectionSort.getValue c sortBy) ≤ 0 := by
    intro Q c e _ _ hp
    have hge : ¬ SelectionSort.compare (SelectionSort.getValue c sortBy)
        (SelectionSort.getValue e sortBy) < 0 := by simpa using hp
    have hneg := compare_neg (SelectionSort.getValue e sortBy)
      (SelectionSort.getValue c sortBy)
    have hneg2 := compare_neg (SelectionSort.getValue c sortBy)
      (SelectionSort.getValue e sortBy)
    omega
  rcases hhomog with hn | hs
  · exact sortCore_pairwise _
      (fun u v => SelectionSort.compare (SelectionSort.getValue u sortBy)
        (SelectionSort.getValue v sortBy) ≤ 0)
      (fun r => (SelectionSort.getValue r sortBy).numOrAbsent = true)
      (htrue2 _) (hfalse2 _)
      (fun a b c ha hb hc h1 h2 => compare_trans_num ha hb hc h1 h2)
      data hn k (k + 1) x y (by omega) hx hy
  · exact sortCore_pairwise _
      (fun u v => SelectionSort.compare (SelectionSort.getValue u sortBy)
        (SelectionSort.getValue v sortBy) ≤ 0)
      (fun r => (SelectionSort.getValue r sortBy).strOrAbsent = true)
      (htrue2 _) (hfalse2 _)
      (fun a b c ha hb hc h1 h2 => compare_trans_str ha hb hc h1 h2)
      data hs k (k + 1) x y (by omega) hx hy

/-- C3 witness: a concrete run of the amended statement on all-numeric
marks. -/
theorem C3_witness :
    SelectionSort.compare (SelectionSort.getValue [("mark", Value.vnum 78)] "mark")
      (SelectionSort.getValue [("mark", Value.vnum 85)] "mark") ≤ 0 :=
  C3_ascending_adjacent_sorted
    [[("mark", Value.vnum 85)], [("mark", Value.vnull)], [("mark", Value.vnum 78)]] "mark"
    (Or.inl (by decide)) 0 [("mark", Value.vnum 78)] [("mark", Value.vnum 85)]
    (by decide) (by decide) (by decide) (by decide)

/-- C4 counterexample: a null input sequence does not yield an empty
result; the spread copy throws a TypeError in every entry point. -/
theorem C4_counterexample :
    sortNumericArrayJS none true = Except.error "TypeError" ∧
    sortStudentsByMarksJS none "mark" true = Except.error "TypeError" ∧
    sortTableDataJS none "mark" true = Except.error "TypeError" ∧
    sortNumericArrayJS none true ≠ Except.ok [] := by
  refine ⟨rfl, rfl, rfl, fun h => Except.noConfusion h⟩

/-- C4 (amended): an empty input sequence makes every sort entry point
return an empty sequence without throwing, but a null input sequence
makes every entry point throw a TypeError (the spread of null is not
iterable); it does not return an empty sequence. -/
theorem C4_empty_returns_empty_null_throws :
    (∀ ascending, sortNumericArrayJS (some []) ascending = Except.ok []) ∧
    (∀ sortBy ascending, sortStudentsByMarksJS (some []) sortBy ascending = Except.ok []) ∧
    (∀ sortBy ascending, sortTableDataJS (some []) sortBy ascending = Except.ok []) ∧
    (∀ ascending, sortNumericArrayJS none ascending = Except.error "TypeError") ∧
    (∀ sortBy ascending, sortStudentsByMarksJS none sortBy ascending
      = Except.error "TypeError") ∧
    (∀ sortBy ascending, sortTableDataJS none sortBy ascending
      = Except.error "TypeError") :=
  ⟨fun _ => rfl, fun _ _ => rfl, fun _ _ => rfl, fun _ => rfl, fun _ _ => rfl, fun _ _ => rfl⟩

theorem jsGe_num (m k : Int) : jsGe (Value.vnum m) (Value.vnum k) = decide (k ≤ m) := rfl

set_option maxHeartbeats 2000000 in
/-- C5: calculateGrade maps every numeric mark to exactly the letter
fixed by the thresholds of the source's if-cascade, and in particular 84
to A-, 50 to C- and 49 to F. -/
theorem C5_grade_thresholds :
    (∀ m : Int,
      (90 ≤ m → calculateGrade (Value.vnum m) = "A+") ∧
      (85 ≤ m ∧ m < 90 → calculateGrade (Value.vnum m) = "A") ∧
      (80 ≤ m ∧ m < 85 → calculateGrade (Value.vnum m) = "A-") ∧
      (75 ≤ m ∧ m < 80 → calculateGrade (Value.vnum m) = "B+") ∧
      (70 ≤ m ∧ m < 75 → calculateGrade (Value.vnum m) = "B") ∧
      (65 ≤ m ∧ m < 70 → calculateGrade (Value.vnum m) = "B-") ∧
      (60 ≤ m ∧ m < 65 → calculateGrade (Value.vnum m) = "C+") ∧
      (55 ≤ m ∧ m < 60 → calculateGrade (Value.vnum m) = "C") ∧
      (50 ≤ m ∧ m < 55 → calculateGrade (Value.vnum m) = "C-") ∧
      (m < 50 → calculateGrade (Value.vnum m) = "F")) ∧
    calculateGrade (Value.vnum 84) = "A-" ∧
    calculateGrade (Value.vnum 50) = "C-" ∧
    calculateGrade (Value.vnum 49) = "F" := by
  refine ⟨fun m => ?_, by decide, by decide, by decide⟩
  unfold calculateGrade
  simp only [jsGe_num, decide_eq_true_eq]
  refine ⟨?_, ?_, ?_, ?_, ?_, ?_, ?_, ?_, ?_, ?_⟩ <;> intro h <;>
    split_ifs <;> first | rfl | omega

/-- C5 witness: two concrete marks run through the range statements. -/
theorem C5_witness :
    calculateGrade (Value.vnum 92) = "A+" ∧ calculateGrade (Value.vnum 67) = "B-" :=
  ⟨(C5_grade_thresholds.1 92).1 (by omega),
    (C5_grade_thresholds.1 67).2.2.2.2.2.1 (by omega)⟩

/-- C6: getSortingStats reports a comparison count of exactly
n(n-1)/2 where n is the length of the original array, for every n and
independent of the contents of either array; the reported size is n, and
a 7-element input reports 21 comparisons. -/
theorem C6_comparison_count :
    (∀ (originalArray sortedArray : List Value),
      (getSortingStats originalArray sortedArray).comparisons
        = ((originalArray.length * (originalArray.length - 1) / 2 : Nat) : Int) ∧
      (getSortingStats originalArray sortedArray).arraySize
        = (originalArray.length : Int)) ∧
    (getSortingStats ([64, 34, 25, 12, 22, 11, 90].map Value.vnum)
      (sortNumericArray ([64, 34, 25, 12, 22, 11, 90].map Value.vnum) true)).comparisons
      = 21 := by
  refine ⟨fun o s => ⟨?_, rfl⟩, by decide⟩
  show Int.fdiv ((o.length : Int) * ((o.length : Int) - 1)) 2
    = ((o.length * (o.length - 1) / 2 : Nat) : Int)
  cases hn : o.length with
  | zero => decide
  | succ k =>
    have h1 : ((k + 1 : Nat) : Int) * (((k + 1 : Nat) : Int) - 1)
        = (((k + 1) * k : Nat) : Int) := by push_cast; ring
    rw [h1, Int.fdiv_eq_ediv _ (by norm_num)]
    simp only [Nat.add_sub_cancel]
    rw [Int.natCast_div]
    norm_num

/-- C7: the sorts do not mutate their callers' objects. At the store
level, sortNumericArray reads the input array object, allocates a fresh
object for the spread copy, runs the in-place loop on the fresh object
only, and returns its (distinct) reference, with the sorted copy's
contents agreeing with the pure sort; and sortStudentsWithGrades
allocates a fresh shallow copy for every annotated record, so every
pre-existing record object is left exactly as it was. -/
theorem C7_no_input_mutation :
    (∀ (σ : ArrStore) (r : Nat) (ascending : Bool), r < σ.arrays.length →
      readArr (sortNumericArrayS σ r ascending).1 r = readArr σ r ∧
      (sortNumericArrayS σ r ascending).2 ≠ r ∧
      readArr (sortNumericArrayS σ r ascending).1 (sortNumericArrayS σ r ascending).2
        = sortNumericArray (readArr σ r) ascending) ∧
    (∀ (ρ : RecStore) (students : List Nat) (ascending : Bool) (q : Nat),
      q < ρ.recs.length →
      readRec (sortStudentsWithGradesS ρ students ascending).1 q = readRec ρ q) := by
  constructor
  · intro σ r ascending hr
    have hnew : readArr (allocArr σ (readArr σ r)).1 (allocArr σ (readArr σ r)).2
        = readArr σ r := readArr_allocArr_new σ (readArr σ r)
    have hold : readArr (allocArr σ (readArr σ r)).1 r = readArr σ r :=
      readArr_allocArr_old σ (readArr σ r) r hr
    have hne : (allocArr σ (readArr σ r)).2 ≠ r := by
      show σ.arrays.length ≠ r
      omega
    have hltlen : (allocArr σ (readArr σ r)).2 < (allocArr σ (readArr σ r)).1.arrays.length := by
      show σ.arrays.length < (σ.arrays ++ [readArr σ r]).length
      simp
    unfold sortNumericArrayS
    dsimp only
    rw [hnew]
    split
    case isTrue hc =>
      refine ⟨hold, hne, ?_⟩
      rw [hnew]
      unfold sortNumericArray sortCore
      rw [if_pos hc]
    case isFalse hc =>
      refine ⟨?_, hne, ?_⟩
      · rw [sortLoopS_frame _ _ _ _ _ r (Ne.symm hne)]
        exact hold
      · rw [sortLoopS_tracks _ _ _ _ 0 hltlen, hnew]
        unfold sortNumericArray sortCore
        rw [if_neg hc]
  · intro ρ students ascending q hq
    show readRec (annotateAll ρ students).1 q = readRec ρ q
    exact annotateAll_frame students ρ q hq

/-- C7 witness: a concrete two-element array object and a concrete
one-record store run through the statement. -/
theorem C7_witness :
    (readArr (sortNumericArrayS ⟨[[Value.vnum 2, Value.vnum 1]]⟩ 0 true).1 0
      = readArr ⟨[[Value.vnum 2, Value.vnum 1]]⟩ 0 ∧
    (sortNumericArrayS ⟨[[Value.vnum 2, Value.vnum 1]]⟩ 0 true).2 ≠ 0 ∧
    readArr (sortNumericArrayS ⟨[[Value.vnum 2, Value.vnum 1]]⟩ 0 true).1
        (sortNumericArrayS ⟨[[Value.vnum 2, Value.vnum 1]]⟩ 0 true).2
      = sortNumericArray (readArr ⟨[[Value.vnum 2, Value.vnum 1]]⟩ 0) true) ∧
    readRec (sortStudentsWithGradesS ⟨[[("mark", Value.vnum 85)]]⟩ [0] true).1 0
      = readRec ⟨[[("mark", Value.vnum 85)]]⟩ 0 :=
  ⟨C7_no_input_mutation.1 ⟨[[Value.vnum 2, Value.vnum 1]]⟩ 0 true (by decide),
    C7_no_input_mutation.2 ⟨[[("mark", Value.vnum 85)]]⟩ [0] true 0 (by decide)⟩

/-- C8: for every list and every index outside the valid range per the
stored size (negative or at least the size), removeAt returns false and
get returns the null sentinel, both without mutating (the model is total,
matching the absence of exceptions), and the size and payload sequence
are unchanged. -/
theorem C8_out_of_range_safe {α : Type} (l : DLinkedList α) (index : Int)
    (h : index < 0 ∨ l.size ≤ index) :
    DLinkedList.removeAt l index = (l, false) ∧
    DLinkedList.get l index = none ∧
    (DLinkedList.removeAt l index).1.size = l.size ∧
    DLinkedList.toArray (DLinkedList.removeAt l index).1 = DLinkedList.toArray l := by
  have h1 : DLinkedList.removeAt l index = (l, false) := by
    unfold DLinkedList.removeAt
    rw [if_pos h]
  have h2 : DLinkedList.get l index = none := by
    unfold DLinkedList.get
    rw [if_pos h]
  exact ⟨h1, h2, by rw [h1], by rw [h1]⟩

/-- C8 witness: removeAt 5 on a concrete 3-element list returns false
and leaves the size at 3; get 5 returns the sentinel. -/
theorem C8_witness :
    DLinkedList.removeAt (⟨["a", "b", "c"], 3⟩ : DLinkedList String) 5
      = ((⟨["a", "b", "c"], 3⟩ : DLinkedList String), false) ∧
    DLinkedList.get (⟨["a", "b", "c"], 3⟩ : DLinkedList String) 5 = none ∧
    (DLinkedList.removeAt (⟨["a", "b", "c"], 3⟩ : DLinkedList String) 5).1.size = 3 ∧
    DLinkedList.toArray
        (DLinkedList.removeAt (⟨["a", "b", "c"], 3⟩ : DLinkedList String) 5).1
      = DLinkedList.toArray (⟨["a", "b", "c"], 3⟩ : DLinkedList String) :=
  C8_out_of_range_safe (⟨["a", "b", "c"], 3⟩ : DLinkedList String) 5 (by decide)

/-- C9: every container operation preserves the invariant that the
stored count equals the number of nodes reachable from head (the chain is
a Lean list, hence finite and acyclic by construction); consequently
getSize agrees with the length of toArray, and after add-only usage
toArray lists the payloads in insertion order. -/
theorem C9_container_invariant {α : Type} [DecidableEq α] :
    (∀ (l : DLinkedList α) (a : α),
      DLinkedList.Inv l → DLinkedList.Inv (DLinkedList.add l a).1) ∧
    (∀ (l : DLinkedList α) (a : α),
      DLinkedList.Inv l → DLinkedList.Inv (DLinkedList.remove l a).1) ∧
    (∀ (l : DLinkedList α) (i : Int),
      DLinkedList.Inv l → DLinkedList.Inv (DLinkedList.removeAt l i).1) ∧
    (∀ l : DLinkedList α, DLinkedList.Inv (DLinkedList.clear l)) ∧
    (∀ l : DLinkedList α, DLinkedList.Inv l →
      DLinkedList.getSize l = ((DLinkedList.toArray l).length : Int)) ∧
    (∀ xs : List α, DLinkedList.toArray (DLinkedList.addAll DLinkedList.mkEmpty xs) = xs) := by
  refine ⟨?_, ?_, ?_, ?_, ?_, ?_⟩
  · intro l a h
    show l.size + 1 = ((DLinkedList.appendTail l.head a).length : Int)
    rw [DLinkedList.appendTail_eq]
    simp only [List.length_append, List.length_singleton]
    unfold DLinkedList.Inv at h
    push_cast
    omega
  · intro l a h
    obtain ⟨hd, sz⟩ := l
    cases hd with
    | nil => exact h
    | cons x t =>
      have hs : sz = ((x :: t).length : Int) := h
      simp only [List.length_cons] at hs
      show DLinkedList.Inv
        (if x = a then ((⟨t, sz - 1⟩ : DLinkedList α), true)
          else if (DLinkedList.removeFirst t a).2 then
            ((⟨x :: (DLinkedList.removeFirst t a).1, sz - 1⟩ : DLinkedList α), true)
          else ((⟨x :: (DLinkedList.removeFirst t a).1, sz⟩ : DLinkedList α), false)).1
      have hspec := DLinkedList.removeFirst_spec t a
      split
      · show sz - 1 = (t.length : Int)
        omega
      · split
        case isTrue hb =>
          rw [if_pos hb] at hspec
          show sz - 1 = ((x :: (DLinkedList.removeFirst t a).1).length : Int)
          simp only [List.length_cons]
          omega
        case isFalse hb =>
          rw [if_neg hb] at hspec
          show sz = ((x :: (DLinkedList.removeFirst t a).1).length : Int)
          simp only [List.length_cons]
          omega
  · intro l i h
    unfold DLinkedList.removeAt
    split
    case isTrue => exact h
    case isFalse hc =>
      unfold DLinkedList.Inv at h
      have hlt : i.toNat < l.head.length := by omega
      show l.size - 1 = ((DLinkedList.removeIdx l.head i.toNat).length : Int)
      rw [DLinkedList.removeIdx_length l.head i.toNat hlt]
      omega
  · intro l
    show (0 : Int) = (([] : List α).length : Int)
    simp
  · intro l h
    show l.size = ((DLinkedList.toArrayGo l.head).length : Int)
    rw [DLinkedList.toArrayGo_eq]
    exact h
  · intro xs
    show DLinkedList.toArrayGo (DLinkedList.addAll DLinkedList.mkEmpty xs).head = xs
    rw [DLinkedList.toArrayGo_eq, DLinkedList.addAll_head]
    rfl

/-- C9 witness: the invariant runs on a concrete one-element list, the
size agrees with toArray, and add-only build-up from empty preserves
insertion order. -/
theorem C9_witness :
    DLinkedList.Inv (DLinkedList.add (⟨["x"], 1⟩ : DLinkedList String) "y").1 ∧
    DLinkedList.Inv (DLinkedList.remove (⟨["x"], 1⟩ : DLinkedList String) "x").1 ∧
    DLinkedList.getSize (⟨["x"], 1⟩ : DLinkedList String)
      = ((DLinkedList.toArray (⟨["x"], 1⟩ : DLinkedList String)).length : Int) ∧
    DLinkedList.toArray (DLinkedList.addAll DLinkedList.mkEmpty ["x"]) = ["x"] :=
  ⟨C9_container_invariant.1 (⟨["x"], 1⟩ : DLinkedList String) "y" (by decide),
    C9_container_invariant.2.1 (⟨["x"], 1⟩ : DLinkedList String) "x" (by decide),
    C9_container_invariant.2.2.2.2.1 (⟨["x"], 1⟩ : DLinkedList String) (by decide),
    C9_container_invariant.2.2.2.2.2 ["x"]⟩

/-- C10: every record returned by sortStudentsWithGrades carries a grade
field, and a record whose mark field is null, undefined or 0 (falsy, so
the source grades the mark as 0) carries the grade F. -/
theorem C10_falsy_mark_grades_F (students : List JsRec) (ascending : Bool) (r : JsRec)
    (hr : r ∈ sortStudentsWithGrades students ascending) :
    (∃ g, fieldLookup r "grade" = Value.vstr g) ∧
    ((fieldLookup r "mark" = Value.vnull ∨ fieldLookup r "mark" = Value.vundef
        ∨ fieldLookup r "mark" = Value.vnum 0) →
      fieldLookup r "grade" = Value.vstr "F") := by
  unfold sortStudentsWithGrades sortStudentsByMarks at hr
  have hr2 : r ∈ students.map annotateWithGrade :=
    (sortCore_perm _ (students.map annotateWithGrade)).mem_iff.mp hr
  obtain ⟨s, hs, rfl⟩ := List.mem_map.mp hr2
  refine ⟨⟨_, fieldLookup_annotate_grade s⟩, ?_⟩
  intro hmark
  have hlook := fieldLookup_annotate_mark s
  rw [fieldLookup_annotate_grade]
  rcases hmark with h | h | h <;> rw [hlook] at h <;> rw [h] <;> rfl

/-- C10 witness: a concrete null-mark student comes back annotated with
grade F. -/
theorem C10_witness :
    (∃ g, fieldLookup [("originalIndex", Value.vundef), ("grade", Value.vstr "F"),
        ("mark", Value.vnull)] "grade" = Value.vstr g) ∧
    ((fieldLookup [("originalIndex", Value.vundef), ("grade", Value.vstr "F"),
          ("mark", Value.vnull)] "mark" = Value.vnull ∨
      fieldLookup [("originalIndex", Value.vundef), ("grade", Value.vstr "F"),
          ("mark", Value.vnull)] "mark" = Value.vundef ∨
      fieldLookup [("originalIndex", Value.vundef), ("grade", Value.vstr "F"),
          ("mark", Value.vnull)] "mark" = Value.vnum 0) →
      fieldLookup [("originalIndex", Value.vundef), ("grade", Value.vstr "F"),
          ("mark", Value.vnull)] "grade" = Value.vstr "F") :=
  C10_falsy_mark_grades_F [[("mark", Value.vnull)]] true
    [("originalIndex", Value.vundef), ("grade", Value.vstr "F"), ("mark", Value.vnull)]
    (by decide)
